import Mathlib

/-!
Shallow embedding of the schraper ingestion service (Rust) in Lean 4.

Scope of the embedding:
* `src/job/mod.rs`    — the job scheduler (`Job`, `Jobs::poll`);
* `src/job/util.rs`   — the rate-limited retrying HTTP client
  (`Client::get_or_post` and its error types), with the observable
  effects of one attempt (permit, cooldown, limiter, send) recorded as
  an event trace;
* `src/job/matching.rs` — the entity matcher `best_rt_hit`;
* `src/job/movies.rs` — record types, `Show::flatten`,
  `fetch_showtimes`, and the fan-out/fan-in movie fetcher run
  (`MovieFetcher::run`), with sink writes and task joins recorded as an
  event trace.

Machine integers of the source are modelled as `Nat`/`Int` (no value in
the program approaches any wrap-around), `f64` scores as `ℚ`, time
instants as `Nat` (Rust `Instant` subtraction saturates at zero, as does
`Nat` subtraction), byte buffers as `String`, and external I/O results
as explicit parameters (`Except`-valued environments).  A Rust panic is
modelled as `Option.none` in the result type of the function that can
panic.
-/

namespace Schraper

/-- Error message carried by `anyhow::Error` / `reqwest::Error`; its content
is never inspected by the program, so a `String` suffices. -/
abbrev ErrMsg := String

/-! ## Scheduler (`src/job/mod.rs`) -/

/-- The scheduler's `Job` record: `last_ran : Option<Instant>` and
`run_interval : Duration`, with instants and durations as `Nat`.
The `job_runner` field is behaviour, not data; it is supplied to `poll`
as an outcome function. -/
structure Job where
  lastRan : Option Nat
  runInterval : Nat
deriving Repr, DecidableEq

/-- Rust `Job::should_run`: true when the job never ran, or when
`now - last_ran >= run_interval` (saturating subtraction, as for
`Instant`). -/
def Job.shouldRun (j : Job) (now : Nat) : Bool :=
  match j.lastRan with
  | some t => decide (j.runInterval ≤ now - t)
  | none => true

/-- Rust `Job::run`: runs the job runner (outcome supplied as a
parameter), propagates an error unchanged via `?`, and sets
`last_ran := Some(Instant::now())` only after a successful run.
`completion` is the instant observed after the run. -/
def Job.run (j : Job) (outcome : Except ErrMsg Unit) (completion : Nat) :
    Job × Except ErrMsg Unit :=
  match outcome with
  | .ok _ => ({ j with lastRan := some completion }, .ok ())
  | .error e => (j, .error e)

/-- Body of Rust `Jobs::poll`, iterating the job list in registration
order; `i` is the registration index of the first job of the list and
`outcomes i` the result `job_runner.run()` would produce for job `i`.
Returns the updated job list, the indices of the jobs that were run (in
order), and the error that aborted the loop via `?`, if any. -/
def pollAux (outcomes : Nat → Except ErrMsg Unit) (now : Nat) :
    List Job → Nat → List Job × List Nat × Option ErrMsg
  | [], _ => ([], [], none)
  | j :: rest, i =>
      if j.shouldRun now then
        match Job.run j (outcomes i) now with
        | (j2, .ok _) =>
            let (rest2, runs, e) := pollAux outcomes now rest (i + 1)
            (j2 :: rest2, i :: runs, e)
        | (j2, .error e) => (j2 :: rest, [i], some e)
      else
        let (rest2, runs, e) := pollAux outcomes now rest (i + 1)
        (j :: rest2, runs, e)

/-- Rust `Jobs::poll` over the registered job list. -/
def poll (jobs : List Job) (outcomes : Nat → Except ErrMsg Unit) (now : Nat) :
    List Job × List Nat × Option ErrMsg :=
  pollAux outcomes now jobs 0

/-- A sequence of poll ticks over a single registered job whose runs all
succeed: at each tick time `t` the job is run when `should_run` holds
(updating `last_ran` to `t` via `Job.run`) and skipped otherwise.
Returns the final job state and the tick times at which it ran. -/
def pollTicks (j : Job) : List Nat → Job × List Nat
  | [] => (j, [])
  | t :: ts =>
      if j.shouldRun t then
        let step := Job.run j (.ok ()) t
        let (j3, ran) := pollTicks step.1 ts
        (j3, t :: ran)
      else
        pollTicks j ts

/-! ## Retrying client (`src/job/util.rs`) -/

/-- Response body bytes; never inspected by the retry logic. -/
abbrev Bytes := String

/-- Rust `GetError` from `util.rs`. -/
inductive GetError where
  | MaxRetriesReached (e : ErrMsg)
  | SemaphoreError (e : ErrMsg)
deriving Repr, DecidableEq

/-- Rust `JsonDecodeError` from `util.rs`. -/
inductive JsonDecodeError where
  | NetworkError (e : GetError)
  | DecodeError (e : ErrMsg)
deriving Repr, DecidableEq

/-- Observable effects of one attempt of `Client::get_or_post`. -/
inductive CEvent where
  | acquirePermit
  | cooldownSleep (secs : Nat)
  | releasePermit
  | limiterWait
  | sendRequest (attempt : Nat)
deriving Repr, DecidableEq

/-- Effect trace of the body of one iteration of the retry loop of
`Client::get_or_post`, before the response is inspected: acquire the
semaphore permit; if this is a retry (`retries > 0`) sleep the fixed
`60 * 5` second cooldown while holding the permit; drop the permit;
wait on the rate limiter when one is configured; send the request. -/
def attemptEvents (hasLimiter : Bool) (retries : Nat) : List CEvent :=
  [CEvent.acquirePermit]
    ++ (if 0 < retries then [CEvent.cooldownSleep (60 * 5)] else [])
    ++ [CEvent.releasePermit]
    ++ (if hasLimiter then [CEvent.limiterWait] else [])
    ++ [CEvent.sendRequest retries]

/-- Result of a `get_or_post` call: the returned value (`none` models the
unreachable `err.unwrap()` panic), the number of attempts performed, and
the effect trace. -/
structure GPResult where
  result : Option (Except GetError Bytes)
  attempts : Nat
  events : List CEvent
deriving Repr

/-- The `while retries <= self.max_retries` loop of
`Client::get_or_post`.  `attempt k` is the outcome of the k-th HTTP
attempt (an error from `send()`, `error_for_status()` or `bytes()`, or
the body bytes).  `fuel = max_retries + 1 - retries` counts the loop
iterations still allowed by the guard; `lastErr` is the `err` variable.
When the guard fails, the loop falls through to
`Err(err.unwrap())?`, which wraps the last error into
`GetError::MaxRetriesReached` — `err = None` there would be the panic. -/
def getOrPostLoop (hasLimiter : Bool) (attempt : Nat → Except ErrMsg Bytes) :
    Nat → Nat → Option ErrMsg → GPResult
  | _, 0, lastErr =>
      { result := lastErr.map (fun e => .error (.MaxRetriesReached e))
        attempts := 0
        events := [] }
  | retries, fuel + 1, _ =>
      let evs := attemptEvents hasLimiter retries
      match attempt retries with
      | .ok b => { result := some (.ok b), attempts := 1, events := evs }
      | .error e =>
          let rest := getOrPostLoop hasLimiter attempt (retries + 1) fuel (some e)
          { result := rest.result
            attempts := rest.attempts + 1
            events := evs ++ rest.events }

/-- Rust `Client::get_or_post` with `max_retries = maxRetries`:
the loop starts at `retries = 0` with `err = None`, so the guard allows
exactly `maxRetries + 1` iterations at most. -/
def get_or_post (maxRetries : Nat) (hasLimiter : Bool)
    (attempt : Nat → Except ErrMsg Bytes) : GPResult :=
  getOrPostLoop hasLimiter attempt 0 (maxRetries + 1) none

/-! ## Entity matcher (`src/job/matching.rs`)

Scores are `f64` in the source; they are modelled as `ℚ`, which realises
the same field arithmetic exactly (every score here is a finite, non-NaN
value, so `partial_cmp(..).unwrap()` is the usual total order). -/

/-- One outer-loop iteration of the `strsim` crate's
`generic_levenshtein` (the Levenshtein implementation behind
`normalized_levenshtein` used in `matching.rs`): processes row `i` for
character `aElem`, scanning `b` against the cache row, and returns the
final `result` together with the updated cache row. -/
def levRow (aElem : Char) (i : Nat) (b : List Char) (cache : List Nat) :
    Nat × List Nat :=
  let final := (b.zip cache).foldl
    (fun (st : Nat × Nat × List Nat) (pr : Char × Nat) =>
      let cost := if aElem = pr.1 then 0 else 1
      let distance_a := st.2.1 + cost
      let distance_b := pr.2
      let result := min (st.1 + 1) (min distance_a (distance_b + 1))
      (result, distance_b, st.2.2 ++ [result]))
    (i + 1, i, [])
  (final.1, final.2.2)

/-- Levenshtein edit distance on character lists, as computed by the
`strsim` crate's `generic_levenshtein`: the cache row starts as
`[1, .., |b|]`, `result` starts at `|b|`, and each enumerated character
of `a` runs one `levRow` pass. -/
def levenshtein (a b : List Char) : Nat :=
  (a.enum.foldl
    (fun (st : Nat × List Nat) (pr : Nat × Char) => levRow pr.2 pr.1 b st.2)
    (b.length, List.range' 1 b.length)).1

/-- The `strsim` crate's `normalized_levenshtein`: `1` for two empty
strings, else `1 - levenshtein(a, b) / max(|a|, |b|)`. -/
def normalized_levenshtein (a b : String) : ℚ :=
  if a.data.length = 0 ∧ b.data.length = 0 then 1
  else 1 - (levenshtein a.data b.data : ℚ) / (max a.data.length b.data.length : ℚ)

/-- Rust `RTRating` (`movies.rs`): the optional Rotten Tomatoes payload
of a search hit. -/
structure RTRating where
  audience_score : Option Int
  score_sentiment : Option String
  want_to_see_count : Option Int
  critics_score : Option Int
  certified_fresh : Option Bool
  new_adjusted_TM_score : Option Int
deriving Repr, DecidableEq

/-- Rust `RTHit` (`movies.rs`): one candidate of the ratings search. -/
structure RTHit where
  title : String
  vanity : String
  description : Option String
  release_year : Option Int
  rotten_tomatoes : Option RTRating
deriving Repr, DecidableEq

/-- Score assigned to one hit in the closure of `best_rt_hit`: starts at
`0`, adds `0.1 * |rt_year - pathe_year|` when both years are known, then
adds `1 - normalized_levenshtein(title, hit.title)`. -/
def hitScore (title : String) (year : Option Int) (hit : RTHit) : ℚ :=
  (match hit.release_year, year with
   | some rtYear, some patheYear => (1 / 10 : ℚ) * |(rtYear : ℚ) - (patheYear : ℚ)|
   | _, _ => 0)
  + (1 - normalized_levenshtein title hit.title)

/-- Insert a scored hit into a score-sorted list, after all entries of
smaller-or-equal score: the insertion step of a stable ascending sort by
score, realising `itertools::sorted_by` with the comparator
`a.partial_cmp(b).unwrap()`. -/
def insertByScore (p : RTHit × ℚ) : List (RTHit × ℚ) → List (RTHit × ℚ)
  | [] => [p]
  | q :: rest => if p.2 < q.2 then p :: q :: rest else q :: insertByScore p rest

/-- Stable ascending sort by score (insertion sort, left to right). -/
def sortByScore (l : List (RTHit × ℚ)) : List (RTHit × ℚ) :=
  l.foldl (fun acc p => insertByScore p acc) []

/-- Rust `best_rt_hit` (`matching.rs`): score every hit, sort stably by
ascending score, return the first scored hit (`.next()`), or `none` for
an empty candidate list. -/
def best_rt_hit (hits : List RTHit) (title : String) (year : Option Int) :
    Option (RTHit × ℚ) :=
  (sortByScore (hits.map (fun hit => (hit, hitScore title year hit)))).head?

/-! ## Movie fetcher data (`src/job/movies.rs`) -/

/-- Rust `Cinema` (`movies.rs`). -/
structure Cinema where
  slug : String
  city_slug : String
  name : String
deriving Repr, DecidableEq

/-- Rust `City` (`movies.rs`). -/
structure City where
  slug : String
  name : String
deriving Repr, DecidableEq

/-- Rust `Image` (`movies.rs`). -/
structure Image where
  lg : String
  md : String
deriving Repr, DecidableEq

/-- Rust `Show` (`movies.rs`): the raw upstream shape, release dates as
strings. -/
structure Show where
  slug : String
  title : String
  release_at : List String
  poster_path : Option Image
  movie_type : String
  duration : Int
  genres : List String
deriving Repr, DecidableEq

/-- Calendar date, the model of `chrono::NaiveDate`. -/
structure NaiveDate where
  year : Int
  month : Nat
  day : Nat
deriving Repr, DecidableEq

/-- Proleptic-Gregorian leap year, as in `chrono`. -/
def isLeapYear (y : Int) : Bool :=
  y % 4 = 0 ∧ (y % 100 ≠ 0 ∨ y % 400 = 0)

/-- Days in a month of a year, as validated by `chrono::NaiveDate`. -/
def daysInMonth (y : Int) (m : Nat) : Nat :=
  if m = 2 then (if isLeapYear y then 29 else 28)
  else if m = 4 ∨ m = 6 ∨ m = 9 ∨ m = 11 then 30
  else 31

/-- Value of a list of decimal digit characters. -/
def digitsToNat (ds : List Char) : Nat :=
  ds.foldl (fun acc c => acc * 10 + (c.toNat - '0'.toNat)) 0

/-- Model of `chrono::NaiveDate::parse_from_str(s, "%Y-%m-%d")` (the
`PATHE_DATE_FORMAT` of `movies.rs`): digits, a dash, a one-or-two digit
month, a dash, a one-or-two digit day, nothing trailing; the numbers
must form a valid calendar date.  A parse failure is `none`. -/
def parseDate (s : String) : Option NaiveDate :=
  let cs := s.data
  let yearDigits := cs.takeWhile Char.isDigit
  let rest := cs.dropWhile Char.isDigit
  if yearDigits = [] then none else
  match rest with
  | '-' :: rest1 =>
    let monthDigits := rest1.takeWhile Char.isDigit
    let rest2 := rest1.dropWhile Char.isDigit
    if monthDigits = [] ∨ 2 < monthDigits.length then none else
    match rest2 with
    | '-' :: rest3 =>
      let dayDigits := rest3.takeWhile Char.isDigit
      let rest4 := rest3.dropWhile Char.isDigit
      if dayDigits = [] ∨ 2 < dayDigits.length ∨ rest4 ≠ [] then none else
      let y : Int := digitsToNat yearDigits
      let m := digitsToNat monthDigits
      let d := digitsToNat dayDigits
      if 1 ≤ m ∧ m ≤ 12 ∧ 1 ≤ d ∧ d ≤ daysInMonth y m then
        some ⟨y, m, d⟩
      else none
    | _ => none
  | _ => none

/-- Rust `FlatShow` (`movies.rs`). -/
structure FlatShow where
  slug : String
  title : String
  release_at : Option NaiveDate
  movie_type : String
  duration : Int
deriving Repr, DecidableEq

/-- Rust `Poster` (`movies.rs`). -/
structure Poster where
  show_slug : String
  lg : Option String
  md : Option String
deriving Repr, DecidableEq

/-- Rust `Genre` (`movies.rs`). -/
structure Genre where
  show_slug : String
  genre : String
deriving Repr, DecidableEq

/-- Rust `Show::flatten`: projects a `Show` into a `FlatShow`, a
`Poster` and one `Genre` per genre string.  The first release date
string, when present, is parsed with `parse_from_str(..).unwrap()`:
an unparseable first date string panics, modelled as `none`. -/
def Show.flatten (s : Show) : Option (FlatShow × Poster × List Genre) :=
  match s.release_at.head? with
  | some dateStr =>
      match parseDate dateStr with
      | none => none
      | some d =>
          some (⟨s.slug, s.title, some d, s.movie_type, s.duration⟩,
                ⟨s.slug, s.poster_path.map Image.lg, s.poster_path.map Image.md⟩,
                s.genres.map (fun g => ⟨s.slug, g⟩))
  | none =>
      some (⟨s.slug, s.title, none, s.movie_type, s.duration⟩,
            ⟨s.slug, s.poster_path.map Image.lg, s.poster_path.map Image.md⟩,
            s.genres.map (fun g => ⟨s.slug, g⟩))

/-- Rust `Showtime` (`movies.rs`). -/
structure Showtime where
  show_slug : Option String
  cinema_slug : Option String
  time : String
  reservation_url : String
  auditorium_name : String
  auditorium_capacity : String
  end_time : String
deriving Repr, DecidableEq

/-- Rust `Rating` (`movies.rs`): the record written to the `ratings`
table, keyed by `slug`. -/
structure Rating where
  slug : String
  title : String
  description : Option String
  release_year : Option Int
  audience_score : Option Int
  score_sentiment : Option String
  want_to_see_count : Option Int
  critics_score : Option Int
  certified_fresh : Option Bool
  new_adjusted_tm_score : Option Int
deriving Repr, DecidableEq

/-- Rust `RatingShow` (`movies.rs`): the show-to-rating association
record, keyed by `(show_slug, rating_slug)`. -/
structure RatingShow where
  show_slug : String
  rating_slug : String
  match_score : ℚ
deriving Repr, DecidableEq

/-- Rust `fetch_showtimes` (`movies.rs`): `resp` is the result of
`client.get_json(..)` decoded as a map from auditorium keys to showtime
lists.  A decode error is replaced by the empty map
(`HashMap::default()`); a network error is re-raised with `bail!`.  On
the success path every showtime is stamped with the show and cinema
slugs. -/
def fetch_showtimes (show_slug cinema_slug : String)
    (resp : Except JsonDecodeError (List (String × List Showtime))) :
    Except GetError (List Showtime) :=
  match resp with
  | .error (.NetworkError err) => .error err
  | .error (.DecodeError _) => .ok []
  | .ok res =>
      .ok ((res.map Prod.snd).flatten.map
        (fun st => { st with show_slug := some show_slug,
                             cinema_slug := some cinema_slug }))

/-! ## Movie fetcher run (`MovieFetcher::run` in `src/job/movies.rs`)

The run is modelled as a sequential determinisation of the async code:
network results are supplied by a `RunEnv`, and the externally
observable steps — joining a spawned task, writing a batch to the sink —
are recorded in an event trace.  `tokio::spawn` itself is unobservable
(it performs no I/O at spawn time); each spawned future's outcome is
read off at its `await` point, exactly as `run` does.  A `?` that fires
ends the trace with the error. -/

/-- Observable steps of one `MovieFetcher::run`. -/
inductive Event where
  | joinShowtimes (cinema : String)
  | joinRating (showSlug : String)
  | sinkWrite (table : String)
deriving Repr, DecidableEq

/-- Results the environment (network and decoders) hands to one run:
the three top-level fetches, the per-show rating fetch
(`fetch_show_rating`, keyed by show slug, title and release year), and
the per-cinema showtime fetch (`fetch_showtimes_cinema`, keyed by the
cinema slug). -/
structure RunEnv where
  cinemas : Except ErrMsg (List Cinema)
  cities : Except ErrMsg (List City)
  shows : Except ErrMsg (List Show)
  ratingOf : String → String → Option Int → Except ErrMsg (Option (Rating × RatingShow))
  showtimesOf : String → Except ErrMsg (List Showtime)

/-- State of the rating fan-in loop: the `inserted_ratings` hash set
(as a list with membership), the records added to `ratinginserter`, and
the records added to `ratingshowinserter`. -/
structure RatingAcc where
  inserted : List String
  ratings : List Rating
  ratingShows : List RatingShow
deriving Repr, DecidableEq

/-- One iteration body of the rating fan-in loop of `MovieFetcher::run`:
on `Some((rating, ratingshow))`, the rating is added only when its slug
is not yet in `inserted_ratings` (which then records the slug), while
the association record is always added; on `None` nothing happens. -/
def ratingStep (acc : RatingAcc) (r : Option (Rating × RatingShow)) : RatingAcc :=
  match r with
  | none => acc
  | some (rating, ratingshow) =>
      let acc1 :=
        if rating.slug ∈ acc.inserted then acc
        else { acc with inserted := rating.slug :: acc.inserted,
                        ratings := acc.ratings ++ [rating] }
      { acc1 with ratingShows := acc1.ratingShows ++ [ratingshow] }

/-- The showtime fan-in loop of `MovieFetcher::run`: await each
per-cinema handle in spawn order, appending its showtimes; the first
`handle.await??` error aborts the loop. -/
def joinShowtimeHandles (showtimesOf : String → Except ErrMsg (List Showtime)) :
    List String → List Event × Except ErrMsg (List Showtime)
  | [] => ([], .ok [])
  | c :: rest =>
      match showtimesOf c with
      | .error e => ([Event.joinShowtimes c], .error e)
      | .ok sts =>
          let (evs, r) := joinShowtimeHandles showtimesOf rest
          (Event.joinShowtimes c :: evs, r.map (fun l => sts ++ l))

/-- The rating fan-in loop of `MovieFetcher::run`: await each per-show
handle in spawn order, feeding successes to `ratingStep`; the first
`handle.await??` error aborts the loop. -/
def joinRatingHandles :
    List (String × Except ErrMsg (Option (Rating × RatingShow))) → RatingAcc →
    List Event × Except ErrMsg RatingAcc
  | [], acc => ([], .ok acc)
  | (slug, res) :: rest, acc =>
      match res with
      | .error e => ([Event.joinRating slug], .error e)
      | .ok r =>
          let (evs, out) := joinRatingHandles rest (ratingStep acc r)
          (Event.joinRating slug :: evs, out)

/-- Flatten every show, as the spawn loop of `MovieFetcher::run` does;
`none` when any `Show::flatten` panics. -/
def flattenShows : List Show → Option (List (FlatShow × Poster × List Genre))
  | [] => some []
  | s :: rest =>
      match s.flatten with
      | none => none
      | some f => (flattenShows rest).map (fun l => f :: l)

/-- Fixed table order of the write phase of `MovieFetcher::run`. -/
def writeEvents : List Event :=
  [Event.sinkWrite "cities", Event.sinkWrite "cinemas", Event.sinkWrite "shows",
   Event.sinkWrite "posters", Event.sinkWrite "genres", Event.sinkWrite "showtimes",
   Event.sinkWrite "ratings", Event.sinkWrite "ratingshows"]

/-- Rust `MovieFetcher::run`: fetch the three top-level resources
(`try_join!`); flatten shows, spawning one rating fetch per show and one
showtime fetch per cinema; join all showtime handles, then all rating
handles (with deduplication); only then execute the batch writes in
fixed table order.  The outer `Option` is the panic of `Show::flatten`;
the trace lists the joins and writes performed before a `?` fired. -/
def MovieFetcher.run (env : RunEnv) : Option (List Event × Option ErrMsg) :=
  match env.cinemas, env.cities, env.shows with
  | .error e, _, _ => some ([], some e)
  | .ok _, .error e, _ => some ([], some e)
  | .ok _, .ok _, .error e => some ([], some e)
  | .ok cinemas, .ok _, .ok shows =>
      match flattenShows shows with
      | none => none
      | some flat =>
          let ratingResults := flat.map (fun f =>
            (f.1.slug, env.ratingOf f.1.slug f.1.title (f.1.release_at.map NaiveDate.year)))
          let (stEvs, stRes) := joinShowtimeHandles env.showtimesOf (cinemas.map Cinema.slug)
          match stRes with
          | .error e => some (stEvs, some e)
          | .ok _ =>
              let (rtEvs, rtRes) := joinRatingHandles ratingResults ⟨[], [], []⟩
              match rtRes with
              | .error e => some (stEvs ++ rtEvs, some e)
              | .ok _ => some (stEvs ++ rtEvs ++ writeEvents, none)

/-- First-minimum accumulator: scans scored hits left to right, keeping
the current best and replacing it only on a strictly smaller score.
Specification device used to characterise the head of the stable sort of
`best_rt_hit` (the earliest lowest-scoring candidate). -/
def runMinAux : Option (RTHit × ℚ) → List (RTHit × ℚ) → Option (RTHit × ℚ)
  | cur, [] => cur
  | none, p :: rest => runMinAux (some p) rest
  | some q, p :: rest => runMinAux (some (if p.2 < q.2 then p else q)) rest

/-! ## Scheduler lemmas and theorems -/

theorem shouldRun_none (d now : Nat) : Job.shouldRun ⟨none, d⟩ now = true := rfl

theorem shouldRun_before (d t0 t : Nat) (h1 : t0 ≤ t) (h2 : t < t0 + d) :
    Job.shouldRun ⟨some t0, d⟩ t = false := by
  simp only [Job.shouldRun, decide_eq_false_iff_not]
  omega

theorem shouldRun_after (d t0 t : Nat) (h : t0 + d ≤ t) :
    Job.shouldRun ⟨some t0, d⟩ t = true := by
  simp only [Job.shouldRun, decide_eq_true_eq]
  omega

theorem pollTicks_no_run (d t0 : Nat) (ts : List Nat)
    (h : ∀ t ∈ ts, t0 ≤ t ∧ t < t0 + d) :
    pollTicks ⟨some t0, d⟩ ts = (⟨some t0, d⟩, []) := by
  induction ts with
  | nil => rfl
  | cons t ts ih =>
      have ht := h t (List.mem_cons_self t ts)
      rw [pollTicks, shouldRun_before d t0 t ht.1 ht.2]
      simpa using ih (fun u hu => h u (List.mem_cons_of_mem t hu))

theorem pollTicks_append (as bs : List Nat) : ∀ j : Job,
    pollTicks j (as ++ bs) =
      ((pollTicks (pollTicks j as).1 bs).1,
       (pollTicks j as).2 ++ (pollTicks (pollTicks j as).1 bs).2) := by
  induction as with
  | nil => intro j; simp [pollTicks]
  | cons a as ih =>
      intro j
      rw [List.cons_append, pollTicks, pollTicks]
      by_cases hr : j.shouldRun a
      · simp [hr, ih]
      · simp [hr, ih]

/-- C5: the first `poll()` after registration always runs the job
(there is no prior `last_ran`); subsequent polls strictly before the
interval `d` has elapsed since `last_ran` do not re-run it; the first
poll at or after `d` elapsed re-runs it exactly once, however many
earlier ticks occurred in between. -/
theorem interval_scheduling (d t0 tl : Nat) (ts : List Nat)
    (hts : ∀ t ∈ ts, t0 ≤ t ∧ t < t0 + d) (htl : t0 + d ≤ tl) :
    (∀ now, Job.shouldRun ⟨none, d⟩ now = true)
    ∧ pollTicks ⟨some t0, d⟩ ts = (⟨some t0, d⟩, [])
    ∧ pollTicks ⟨some t0, d⟩ (ts ++ [tl]) = (⟨some tl, d⟩, [tl]) := by
  refine ⟨fun now => rfl, pollTicks_no_run d t0 ts hts, ?_⟩
  rw [pollTicks_append, pollTicks_no_run d t0 ts hts]
  simp only [pollTicks, shouldRun_after d t0 tl htl, if_true, Job.run,
    List.nil_append]

theorem interval_scheduling_witness :
    Job.shouldRun ⟨none, 2⟩ 5 = true
    ∧ pollTicks ⟨some 0, 2⟩ [0, 1] = (⟨some 0, 2⟩, [])
    ∧ pollTicks ⟨some 0, 2⟩ ([0, 1] ++ [2]) = (⟨some 2, 2⟩, [2]) :=
  ⟨(interval_scheduling 2 0 2 [0, 1] (by decide) (by decide)).1 5,
   (interval_scheduling 2 0 2 [0, 1] (by decide) (by decide)).2.1,
   (interval_scheduling 2 0 2 [0, 1] (by decide) (by decide)).2.2⟩

/-- C6: `Job::run` propagates the runner's result unchanged and updates
`last_ran` to the completion time exactly when the run succeeds; after a
failed run the job record (hence its eligibility at every later poll,
under its original interval) is unchanged. -/
theorem last_ran_updated_iff_success (j : Job) (t : Nat)
    (out : Except ErrMsg Unit) :
    ((Job.run j out t).2 = out)
    ∧ ((Job.run j out t).1.lastRan =
        match out with | .ok _ => some t | .error _ => j.lastRan)
    ∧ ((Job.run j out t).1.runInterval = j.runInterval)
    ∧ (∀ e, out = .error e →
        (Job.run j out t).1 = j
        ∧ ∀ now, Job.shouldRun (Job.run j out t).1 now = Job.shouldRun j now) := by
  cases out with
  | ok u => cases u; refine ⟨rfl, rfl, rfl, fun e he => by cases he⟩
  | error e => exact ⟨rfl, rfl, rfl, fun e' _ => ⟨rfl, fun now => rfl⟩⟩

theorem last_ran_updated_iff_success_witness :
    (Job.run ⟨some 3, 5⟩ (.error "boom") 7).1 = ⟨some 3, 5⟩ :=
  ((last_ran_updated_iff_success ⟨some 3, 5⟩ 7 (.error "boom")).2.2.2
    "boom" rfl).1

theorem pollAux_error (outcomes : Nat → Except ErrMsg Unit) (now : Nat) :
    ∀ (jobs : List Job) (i0 : Nat) (jobs2 : List Job) (runs : List Nat) (e : ErrMsg),
    pollAux outcomes now jobs i0 = (jobs2, runs, some e) →
    ∃ i, i0 ≤ i ∧ outcomes i = .error e ∧ i ∈ runs
      ∧ (∀ k ∈ runs, i0 ≤ k ∧ k ≤ i)
      ∧ (∀ m, i - i0 < m → jobs2.get? m = jobs.get? m) := by
  intro jobs
  induction jobs with
  | nil =>
      intro i0 jobs2 runs e h
      rw [pollAux, Prod.mk.injEq, Prod.mk.injEq] at h
      exact Option.noConfusion h.2.2
  | cons j rest ih =>
      intro i0 jobs2 runs e h
      rcases hrec : pollAux outcomes now rest (i0 + 1) with ⟨rest2, runs2, e2⟩
      by_cases hr : j.shouldRun now
      · cases hout : outcomes i0 with
        | ok u =>
            cases u
            rw [pollAux, if_pos hr, hout] at h
            simp only [Job.run, hrec] at h
            rw [Prod.mk.injEq, Prod.mk.injEq] at h
            obtain ⟨h1, h2, h3⟩ := h
            obtain ⟨i, hi0, hie, him, hbnd, hget⟩ :=
              ih (i0 + 1) rest2 runs2 e (by rw [hrec, h3])
            refine ⟨i, by omega, hie, ?_, ?_, ?_⟩
            · rw [← h2]; exact List.mem_cons_of_mem _ him
            · intro k hk
              rw [← h2] at hk
              rcases List.mem_cons.mp hk with rfl | hk
              · omega
              · have := hbnd k hk; omega
            · intro m hm
              rw [← h1]
              cases m with
              | zero => omega
              | succ m2 => exact hget m2 (by omega)
        | error e0 =>
            rw [pollAux, if_pos hr, hout] at h
            simp only [Job.run] at h
            rw [Prod.mk.injEq, Prod.mk.injEq] at h
            obtain ⟨h1, h2, h3⟩ := h
            obtain rfl : e0 = e := Option.some.inj h3
            refine ⟨i0, le_refl i0, hout, ?_, ?_, ?_⟩
            · rw [← h2]; exact List.mem_singleton_self i0
            · intro k hk
              rw [← h2] at hk
              obtain rfl := List.mem_singleton.mp hk
              exact ⟨le_refl _, le_refl _⟩
            · intro m hm
              rw [← h1]
      · rw [pollAux, if_neg hr] at h
        simp only [hrec] at h
        rw [Prod.mk.injEq, Prod.mk.injEq] at h
        obtain ⟨h1, h2, h3⟩ := h
        obtain ⟨i, hi0, hie, him, hbnd, hget⟩ :=
          ih (i0 + 1) rest2 runs2 e (by rw [hrec, h3])
        refine ⟨i, by omega, hie, by rw [← h2]; exact him, ?_, ?_⟩
        · intro k hk
          rw [← h2] at hk
          have := hbnd k hk; omega
        · intro m hm
          rw [← h1]
          cases m with
          | zero => omega
          | succ m2 => exact hget m2 (by omega)

/-- C1 (amended): when a job's run fails during `poll()`, the `?` in the
loop returns that error to the caller at once, so the jobs run in that
poll are exactly those up to and including the failing job — every later
job in registration order is left unevaluated and unchanged, even if it
is due. -/
theorem poll_aborts_on_failure (jobs : List Job)
    (outcomes : Nat → Except ErrMsg Unit) (now : Nat)
    (jobs2 : List Job) (runs : List Nat) (e : ErrMsg)
    (h : poll jobs outcomes now = (jobs2, runs, some e)) :
    ∃ i, outcomes i = .error e ∧ i ∈ runs ∧ (∀ k ∈ runs, k ≤ i)
      ∧ (∀ m, i < m → jobs2.get? m = jobs.get? m) := by
  obtain ⟨i, _, hie, him, hbnd, hget⟩ :=
    pollAux_error outcomes now jobs 0 jobs2 runs e h
  exact ⟨i, hie, him, fun k hk => (hbnd k hk).2,
    fun m hm => hget m (by omega)⟩

/-- C1 (counterexample): with two registered jobs that are both due, a
failure of the first job skips the second in the same poll, while the
claim asserts the second would still be run. -/
theorem poll_counterexample :
    poll [⟨none, 10⟩, ⟨none, 10⟩]
        (fun i => if i = 0 then .error "boom" else .ok ()) 0
      = ([⟨none, 10⟩, ⟨none, 10⟩], [0], some "boom")
    ∧ Job.shouldRun ⟨none, 10⟩ 0 = true
    ∧ ¬ (1 ∈ ([0] : List Nat)) :=
  ⟨rfl, rfl, by decide⟩

theorem poll_aborts_on_failure_witness :
    ∃ i, (fun i => if i = 0 then Except.error (ε := ErrMsg) "boom"
            else Except.ok ()) i = .error "boom"
      ∧ i ∈ [0] ∧ (∀ k ∈ [0], k ≤ i)
      ∧ (∀ m, i < m →
          ([⟨none, 10⟩, ⟨none, 10⟩] : List Job).get? m
            = ([⟨none, 10⟩, ⟨none, 10⟩] : List Job).get? m) :=
  poll_aborts_on_failure [⟨none, 10⟩, ⟨none, 10⟩]
    (fun i => if i = 0 then .error "boom" else .ok ()) 0
    [⟨none, 10⟩, ⟨none, 10⟩] [0] "boom" rfl

/-! ## Client lemmas and theorems -/

theorem getOrPostLoop_all_fail (hl : Bool) (attempt : Nat → Except ErrMsg Bytes)
    (es : Nat → ErrMsg) :
    ∀ (f retries : Nat) (lastErr : Option ErrMsg),
    (∀ k, retries ≤ k → k ≤ retries + f → attempt k = .error (es k)) →
    (getOrPostLoop hl attempt retries (f + 1) lastErr).attempts = f + 1
    ∧ (getOrPostLoop hl attempt retries (f + 1) lastErr).result
        = some (.error (.MaxRetriesReached (es (retries + f)))) := by
  intro f
  induction f with
  | zero =>
      intro retries lastErr hfail
      have h0 : attempt retries = .error (es retries) :=
        hfail retries (le_refl _) (by omega)
      rw [getOrPostLoop, h0]
      refine ⟨rfl, ?_⟩
      dsimp only [getOrPostLoop]
      rw [Nat.add_zero]
      rfl
  | succ f ih =>
      intro retries lastErr hfail
      have h0 : attempt retries = .error (es retries) :=
        hfail retries (le_refl _) (by omega)
      rw [getOrPostLoop, h0]
      have hrec := ih (retries + 1) (some (es retries))
        (fun k hk1 hk2 => hfail k (by omega) (by omega))
      have harith : retries + 1 + f = retries + (f + 1) := by omega
      rw [harith] at hrec
      dsimp only
      exact ⟨by rw [hrec.1], by rw [hrec.2]⟩

theorem getOrPostLoop_success (hl : Bool) (attempt : Nat → Except ErrMsg Bytes)
    (b : Bytes) :
    ∀ (m fuel retries : Nat) (lastErr : Option ErrMsg), m < fuel →
    (∀ j, j < m → ∃ e, attempt (retries + j) = .error e) →
    attempt (retries + m) = .ok b →
    (getOrPostLoop hl attempt retries fuel lastErr).result = some (.ok b)
    ∧ (getOrPostLoop hl attempt retries fuel lastErr).attempts = m + 1 := by
  intro m
  induction m with
  | zero =>
      intro fuel retries lastErr hm _ hok
      have hok0 : attempt retries = .ok b := by simpa using hok
      cases fuel with
      | zero => omega
      | succ f =>
          rw [getOrPostLoop, hok0]
          exact ⟨rfl, rfl⟩
  | succ m ih =>
      intro fuel retries lastErr hm hfail hok
      cases fuel with
      | zero => omega
      | succ f =>
          obtain ⟨e0, he0⟩ := hfail 0 (by omega)
          have he00 : attempt retries = .error e0 := by simpa using he0
          rw [getOrPostLoop, he00]
          have hrec := ih f (retries + 1) (some e0) (by omega)
            (fun j hj => by
              obtain ⟨e, he⟩ := hfail (j + 1) (by omega)
              exact ⟨e, by rw [show retries + 1 + j = retries + (j + 1) by omega]; exact he⟩)
            (by rw [show retries + 1 + m = retries + (m + 1) by omega]; exact hok)
          dsimp only
          exact ⟨hrec.1, by rw [hrec.2]⟩

/-- C3: a `get`/`post` call through a client with `max_retries = r` whose
every attempt fails performs exactly `r + 1` attempts and then fails
with the last observed error wrapped in `MaxRetriesReached`; a call
whose attempt `k ≤ r` succeeds (all earlier attempts failing) returns
the response body after exactly `k + 1` attempts. -/
theorem retry_semantics (r : Nat) (hl : Bool)
    (attempt : Nat → Except ErrMsg Bytes) :
    (∀ es : Nat → ErrMsg, (∀ k, k ≤ r → attempt k = .error (es k)) →
       (get_or_post r hl attempt).attempts = r + 1
       ∧ (get_or_post r hl attempt).result
           = some (.error (.MaxRetriesReached (es r))))
    ∧ (∀ k b, k ≤ r → (∀ j, j < k → ∃ e, attempt j = .error e) →
        attempt k = .ok b →
        (get_or_post r hl attempt).result = some (.ok b)
        ∧ (get_or_post r hl attempt).attempts = k + 1) := by
  constructor
  · intro es hfail
    have h := getOrPostLoop_all_fail hl attempt es r 0 none
      (fun k _ hk2 => hfail k (by omega))
    rw [Nat.zero_add] at h
    exact ⟨h.1, h.2⟩
  · intro k b hk hfail hok
    have h := getOrPostLoop_success hl attempt b k (r + 1) 0 none (by omega)
      (fun j hj => by simpa using hfail j hj) (by simpa using hok)
    exact ⟨h.1, h.2⟩

theorem retry_semantics_witness :
    (get_or_post 2 true (fun _ => .error "e")).attempts = 3
    ∧ (get_or_post 2 true (fun _ => .error "e")).result
        = some (.error (.MaxRetriesReached "e"))
    ∧ (get_or_post 2 true (fun k => if k = 1 then .ok "body" else .error "e")).result
        = some (.ok "body")
    ∧ (get_or_post 2 true (fun k => if k = 1 then .ok "body" else .error "e")).attempts
        = 2 := by
  have h1 := (retry_semantics 2 true (fun _ => .error "e")).1
    (fun _ => "e") (fun k _ => rfl)
  have h2 := (retry_semantics 2 true
      (fun k => if k = 1 then .ok "body" else .error "e")).2 1 "body"
    (by omega)
    (fun j hj => ⟨"e", by have hj0 : j = 0 := by omega
                          subst hj0
                          rfl⟩)
    rfl
  exact ⟨h1.1, h1.2, h2.1, h2.2⟩

/-- C7: within each attempt of `Client::get_or_post`, the concurrency
permit is acquired before every other effect of the attempt; the fixed
`60 * 5` second cooldown sleep occurs exactly on retry attempts (attempt
index > 0) and strictly before the permit release (i.e. while the permit
is held); the permit release strictly precedes the rate limiter wait;
and when a limiter is configured it is waited on, before the request is
sent, on every attempt including the first. -/
theorem attempt_effect_order (hl : Bool) (k : Nat) :
    (attemptEvents hl k).head? = some CEvent.acquirePermit
    ∧ (CEvent.cooldownSleep 300 ∈ attemptEvents hl k ↔ 0 < k)
    ∧ (hl = true → CEvent.limiterWait ∈ attemptEvents hl k)
    ∧ (∀ i j, (attemptEvents hl k).get? i = some (CEvent.cooldownSleep 300) →
        (attemptEvents hl k).get? j = some CEvent.releasePermit → i < j)
    ∧ (∀ i j, (attemptEvents hl k).get? i = some CEvent.releasePermit →
        (attemptEvents hl k).get? j = some CEvent.limiterWait → i < j)
    ∧ (∀ i j, (attemptEvents hl k).get? i = some CEvent.limiterWait →
        (attemptEvents hl k).get? j = some (CEvent.sendRequest k) → i < j) := by
  cases hl <;> cases k <;>
    refine ⟨by simp [attemptEvents], by simp [attemptEvents],
            by simp [attemptEvents], ?_, ?_, ?_⟩ <;>
    (intro i j hi hj
     simp [attemptEvents] at hi hj
     rcases i with _|_|_|_|_|i <;> rcases j with _|_|_|_|_|j <;>
       simp at hi hj <;> omega)

theorem attempt_effect_order_witness :
    CEvent.cooldownSleep 300 ∈ attemptEvents true 1
    ∧ CEvent.limiterWait ∈ attemptEvents true 1 :=
  ⟨(attempt_effect_order true 1).2.1.mpr (by omega),
   (attempt_effect_order true 1).2.2.1 rfl⟩

/-! ## Showtime decode/transport and flatten theorems -/

/-- C8: in `fetch_showtimes`, a payload-decode failure yields `Ok` of an
empty showtime list (success with zero showtimes), while a
transport-level failure (retry-exhausted network error) yields an error
that propagates. -/
theorem showtimes_decode_absorbed (show_slug cinema_slug : String)
    (resp : Except JsonDecodeError (List (String × List Showtime))) :
    (∀ d, resp = .error (.DecodeError d) →
      fetch_showtimes show_slug cinema_slug resp = .ok [])
    ∧ (∀ ge, resp = .error (.NetworkError ge) →
      fetch_showtimes show_slug cinema_slug resp = .error ge) := by
  constructor
  · intro d hd; subst hd; rfl
  · intro ge hge; subst hge; rfl

theorem showtimes_decode_absorbed_witness :
    fetch_showtimes "show" "cinema" (.error (.DecodeError "bad json")) = .ok []
    ∧ fetch_showtimes "show" "cinema"
        (.error (.NetworkError (.MaxRetriesReached "timeout")))
        = .error (.MaxRetriesReached "timeout") :=
  ⟨(showtimes_decode_absorbed "show" "cinema"
      (.error (.DecodeError "bad json"))).1 "bad json" rfl,
   (showtimes_decode_absorbed "show" "cinema"
      (.error (.NetworkError (.MaxRetriesReached "timeout")))).2
      (.MaxRetriesReached "timeout") rfl⟩

/-- C10: `Show::flatten` panics (result `none`) exactly on shows whose
first release date string fails to parse as `%Y-%m-%d`: with a non-empty
`release_at` whose head does not parse it panics, and it is total when
`release_at` is empty or its head parses. -/
theorem flatten_panics_on_malformed_date (s : Show) :
    (∀ hd, s.release_at.head? = some hd → parseDate hd = none →
        s.flatten = none)
    ∧ (∀ hd, s.release_at.head? = some hd → (parseDate hd).isSome →
        (s.flatten).isSome)
    ∧ (s.release_at = [] → (s.flatten).isSome) := by
  refine ⟨?_, ?_, ?_⟩
  · intro hd hhd hparse
    simp only [Show.flatten, hhd, hparse]
  · intro hd hhd hparse
    cases hp : parseDate hd with
    | none => rw [hp] at hparse; exact absurd hparse (by simp)
    | some d => simp [Show.flatten, hhd, hp]
  · intro hnil
    simp [Show.flatten, hnil]

theorem flatten_panics_on_malformed_date_witness :
    Show.flatten ⟨"dune", "Dune", ["garbage"], none, "movie", 155, []⟩ = none
    ∧ (Show.flatten ⟨"dune", "Dune", ["2021-10-01"], none, "movie", 155, []⟩).isSome :=
  ⟨(flatten_panics_on_malformed_date
      ⟨"dune", "Dune", ["garbage"], none, "movie", 155, []⟩).1
      "garbage" rfl (by decide),
   (flatten_panics_on_malformed_date
      ⟨"dune", "Dune", ["2021-10-01"], none, "movie", 155, []⟩).2.1
      "2021-10-01" rfl (by decide)⟩

/-! ## Matcher lemmas and theorems -/

theorem insertByScore_head (p : RTHit × ℚ) (acc : List (RTHit × ℚ)) :
    (insertByScore p acc).head? =
      some (match acc.head? with
            | none => p
            | some q => if p.2 < q.2 then p else q) := by
  cases acc with
  | nil => rfl
  | cons q rest =>
      rw [insertByScore]
      by_cases h : p.2 < q.2
      · rw [if_pos h]; simp [h]
      · rw [if_neg h]; simp [h]

theorem foldl_insert_head (l : List (RTHit × ℚ)) :
    ∀ acc : List (RTHit × ℚ),
    (l.foldl (fun a p => insertByScore p a) acc).head? = runMinAux acc.head? l := by
  induction l with
  | nil => intro acc; simp [runMinAux]
  | cons p rest ih =>
      intro acc
      rw [List.foldl_cons, ih (insertByScore p acc), insertByScore_head]
      cases hacc : acc.head? with
      | none => rfl
      | some q => rfl

theorem runMinAux_some_spec (l : List (RTHit × ℚ)) :
    ∀ cur : RTHit × ℚ, ∃ res, runMinAux (some cur) l = some res ∧
      ((res = cur ∧ ∀ j p, l.get? j = some p → cur.2 ≤ p.2)
       ∨ (∃ i, l.get? i = some res ∧ res.2 < cur.2
           ∧ (∀ j p, l.get? j = some p → res.2 ≤ p.2)
           ∧ (∀ j p, j < i → l.get? j = some p → res.2 < p.2))) := by
  induction l with
  | nil =>
      intro cur
      exact ⟨cur, rfl, Or.inl ⟨rfl, fun j p hp => by simp at hp⟩⟩
  | cons p rest ih =>
      intro cur
      rw [runMinAux]
      by_cases hlt : p.2 < cur.2
      · rw [if_pos hlt]
        obtain ⟨res, hres, hcase⟩ := ih p
        refine ⟨res, hres, Or.inr ?_⟩
        rcases hcase with ⟨rfl, hall⟩ | ⟨i, hi, hlt2, hall, hstrict⟩
        · refine ⟨0, rfl, hlt, ?_, ?_⟩
          · intro j q hq
            cases j with
            | zero => obtain rfl := Option.some.inj hq; exact le_refl _
            | succ j2 => exact hall j2 q hq
          · intro j q hj hq; omega
        · refine ⟨i + 1, hi, lt_trans hlt2 hlt, ?_, ?_⟩
          · intro j q hq
            cases j with
            | zero => obtain rfl := Option.some.inj hq; exact le_of_lt hlt2
            | succ j2 => exact hall j2 q hq
          · intro j q hj hq
            cases j with
            | zero => obtain rfl := Option.some.inj hq; exact hlt2
            | succ j2 => exact hstrict j2 q (by omega) hq
      · rw [if_neg hlt]
        obtain ⟨res, hres, hcase⟩ := ih cur
        refine ⟨res, hres, ?_⟩
        rcases hcase with ⟨rfl, hall⟩ | ⟨i, hi, hlt2, hall, hstrict⟩
        · refine Or.inl ⟨rfl, ?_⟩
          intro j q hq
          cases j with
          | zero => obtain rfl := Option.some.inj hq; exact not_lt.mp hlt
          | succ j2 => exact hall j2 q hq
        · refine Or.inr ⟨i + 1, hi, hlt2, ?_, ?_⟩
          · intro j q hq
            cases j with
            | zero =>
                obtain rfl := Option.some.inj hq
                exact le_of_lt (lt_of_lt_of_le hlt2 (not_lt.mp hlt))
            | succ j2 => exact hall j2 q hq
          · intro j q hj hq
            cases j with
            | zero =>
                obtain rfl := Option.some.inj hq
                exact lt_of_lt_of_le hlt2 (not_lt.mp hlt)
            | succ j2 => exact hstrict j2 q (by omega) hq

theorem runMinAux_none_spec (l : List (RTHit × ℚ)) :
    (runMinAux none l = none ↔ l = [])
    ∧ (∀ res, runMinAux none l = some res →
        ∃ i, l.get? i = some res
          ∧ (∀ j p, l.get? j = some p → res.2 ≤ p.2)
          ∧ (∀ j p, j < i → l.get? j = some p → res.2 < p.2)) := by
  cases l with
  | nil =>
      exact ⟨by simp [runMinAux], fun res h => by simp [runMinAux] at h⟩
  | cons p rest =>
      constructor
      · constructor
        · intro h
          rw [runMinAux] at h
          obtain ⟨res, hres, _⟩ := runMinAux_some_spec rest p
          rw [hres] at h
          exact Option.noConfusion h
        · intro h; exact absurd h (by simp)
      · intro res h
        rw [runMinAux] at h
        obtain ⟨res2, hres2, hcase⟩ := runMinAux_some_spec rest p
        rw [hres2] at h
        obtain rfl := Option.some.inj h
        rcases hcase with ⟨rfl, hall⟩ | ⟨i, hi, hlt2, hall, hstrict⟩
        · refine ⟨0, rfl, ?_, ?_⟩
          · intro j q hq
            cases j with
            | zero => obtain rfl := Option.some.inj hq; exact le_refl _
            | succ j2 => exact hall j2 q hq
          · intro j q hj hq; omega
        · refine ⟨i + 1, hi, ?_, ?_⟩
          · intro j q hq
            cases j with
            | zero => obtain rfl := Option.some.inj hq; exact le_of_lt hlt2
            | succ j2 => exact hall j2 q hq
          · intro j q hj hq
            cases j with
            | zero => obtain rfl := Option.some.inj hq; exact hlt2
            | succ j2 => exact hstrict j2 q (by omega) hq

/-- C4: `best_rt_hit` returns `none` exactly on an empty candidate list;
otherwise it returns a candidate of the input together with its score —
the sum of `1 - normalized_levenshtein` and the `0.1 × |Δyear|` penalty,
as computed by `hitScore` — such that the score is minimal among all
candidates and every strictly earlier candidate scores strictly worse
(ties are broken by input order, the sort being stable). -/
theorem best_match_semantics (hits : List RTHit) (title : String)
    (year : Option Int) :
    (best_rt_hit hits title year = none ↔ hits = [])
    ∧ (∀ h s, best_rt_hit hits title year = some (h, s) →
        s = hitScore title year h
        ∧ ∃ i, hits.get? i = some h
            ∧ (∀ j hj, hits.get? j = some hj → s ≤ hitScore title year hj)
            ∧ (∀ j hj, j < i → hits.get? j = some hj →
                s < hitScore title year hj)) := by
  have hkey : best_rt_hit hits title year
      = runMinAux none (hits.map (fun hit => (hit, hitScore title year hit))) := by
    rw [best_rt_hit, sortByScore, foldl_insert_head]
    rfl
  constructor
  · rw [hkey]
    constructor
    · intro h
      exact List.map_eq_nil.mp ((runMinAux_none_spec _).1.mp h)
    · intro h; subst h; rfl
  · intro h s hbest
    rw [hkey] at hbest
    obtain ⟨i, hi, hall, hstrict⟩ := (runMinAux_none_spec _).2 (h, s) hbest
    rw [List.get?_map] at hi
    cases hhit : hits.get? i with
    | none => rw [hhit] at hi; exact Option.noConfusion hi
    | some hit =>
        rw [hhit] at hi
        have hpair := Option.some.inj hi
        have hh : hit = h := congrArg Prod.fst hpair
        have hs : hitScore title year hit = s := congrArg Prod.snd hpair
        subst hh
        refine ⟨hs.symm, i, hhit, ?_, ?_⟩
        · intro j hj hjget
          have hsc : (hits.map (fun hit => (hit, hitScore title year hit))).get? j
              = some (hj, hitScore title year hj) := by
            rw [List.get?_map, hjget]; rfl
          simpa using hall j (hj, hitScore title year hj) hsc
        · intro j hj hjlt hjget
          have hsc : (hits.map (fun hit => (hit, hitScore title year hit))).get? j
              = some (hj, hitScore title year hj) := by
            rw [List.get?_map, hjget]; rfl
          simpa using hstrict j (hj, hitScore title year hj) hjlt hsc

theorem best_match_semantics_witness :
    ((0 : ℚ) = hitScore "" none ⟨"", "v1", none, none, none⟩)
    ∧ ((0 : ℚ) ≤ hitScore "" none ⟨"", "v2", none, none, none⟩)
    ∧ best_rt_hit [] "" none = none := by
  have hA : hitScore "" none ⟨"", "v1", none, none, none⟩ = 0 := by
    unfold hitScore
    norm_num [normalized_levenshtein]
  have hB : hitScore "" none ⟨"", "v2", none, none, none⟩ = 0 := by
    unfold hitScore
    norm_num [normalized_levenshtein]
  have hbest : best_rt_hit
      [⟨"", "v1", none, none, none⟩, ⟨"", "v2", none, none, none⟩] "" none
      = some (⟨"", "v1", none, none, none⟩, 0) := by
    unfold best_rt_hit sortByScore
    rw [List.map_cons, List.map_cons, List.map_nil, hA, hB,
        List.foldl_cons, List.foldl_cons, List.foldl_nil]
    simp only [insertByScore]
    norm_num
  obtain ⟨hs, i, hi, hall, -⟩ :=
    (best_match_semantics
        [⟨"", "v1", none, none, none⟩, ⟨"", "v2", none, none, none⟩]
        "" none).2
      ⟨"", "v1", none, none, none⟩ 0 hbest
  exact ⟨hs, hall 1 ⟨"", "v2", none, none, none⟩ rfl,
    (best_match_semantics [] "" none).1.mpr rfl⟩

/-! ## Rating deduplication lemmas and theorem -/

theorem ratingStep_wf (acc : RatingAcc) (r : Option (Rating × RatingShow))
    (hwf : ∀ s, ((acc.ratings.filter (fun q => q.slug = s)).length)
        = if s ∈ acc.inserted then 1 else 0) :
    ∀ s, (((ratingStep acc r).ratings.filter (fun q => q.slug = s)).length)
        = if s ∈ (ratingStep acc r).inserted then 1 else 0 := by
  intro s
  cases r with
  | none => exact hwf s
  | some pr =>
      obtain ⟨rating, rs⟩ := pr
      rw [ratingStep]
      by_cases hmem : rating.slug ∈ acc.inserted
      · rw [if_pos hmem]
        exact hwf s
      · rw [if_neg hmem]
        dsimp only
        rw [List.filter_append, List.length_append]
        by_cases hs : rating.slug = s
        · subst hs
          rw [hwf rating.slug, if_neg hmem, if_pos (List.mem_cons_self _ _)]
          simp
        · rw [hwf s]
          have hnil : List.filter (fun q => decide (q.slug = s)) [rating] = [] := by
            simp [hs]
          rw [hnil]
          have hiff : s ∈ rating.slug :: acc.inserted ↔ s ∈ acc.inserted := by
            constructor
            · intro h
              rcases List.mem_cons.mp h with h2 | h2
              · exact absurd h2.symm hs
              · exact h2
            · exact fun h => List.mem_cons_of_mem _ h
          by_cases hins : s ∈ acc.inserted
          · rw [if_pos hins, if_pos (hiff.mpr hins)]
            simp
          · rw [if_neg hins, if_neg (fun h => hins (hiff.mp h))]
            simp

theorem foldl_ratingStep_wf (results : List (Option (Rating × RatingShow))) :
    ∀ acc : RatingAcc,
    (∀ s, ((acc.ratings.filter (fun q => q.slug = s)).length)
        = if s ∈ acc.inserted then 1 else 0) →
    ∀ s, (((results.foldl ratingStep acc).ratings.filter
        (fun q => q.slug = s)).length)
      = if s ∈ (results.foldl ratingStep acc).inserted then 1 else 0 := by
  induction results with
  | nil => intro acc hwf s; exact hwf s
  | cons r rest ih =>
      intro acc hwf s
      rw [List.foldl_cons]
      exact ih (ratingStep acc r) (ratingStep_wf acc r hwf) s

theorem foldl_ratingStep_inserted (results : List (Option (Rating × RatingShow))) :
    ∀ (acc : RatingAcc) (s : String),
    (s ∈ (results.foldl ratingStep acc).inserted ↔
      s ∈ acc.inserted ∨ s ∈ (results.filterMap id).map (fun pr => pr.1.slug)) := by
  induction results with
  | nil => intro acc s; simp
  | cons r rest ih =>
      intro acc s
      rw [List.foldl_cons, ih]
      cases r with
      | none => simp [ratingStep]
      | some pr =>
          obtain ⟨rating, rs⟩ := pr
          rw [ratingStep]
          by_cases hmem : rating.slug ∈ acc.inserted
          · rw [if_pos hmem]
            dsimp only
            simp only [List.filterMap_cons, id_eq, List.map_cons, List.mem_cons]
            constructor
            · rintro (h | h)
              · exact Or.inl h
              · exact Or.inr (Or.inr h)
            · rintro (h | h | h)
              · exact Or.inl h
              · exact Or.inl (by rw [h]; exact hmem)
              · exact Or.inr h
          · rw [if_neg hmem]
            dsimp only
            simp only [List.filterMap_cons, id_eq, List.map_cons, List.mem_cons]
            constructor
            · rintro (h | h)
              · rcases h with h2 | h2
                · exact Or.inr (Or.inl h2)
                · exact Or.inl h2
              · exact Or.inr (Or.inr h)
            · rintro (h | h | h)
              · exact Or.inl (Or.inr h)
              · exact Or.inl (Or.inl h)
              · exact Or.inr h

theorem foldl_ratingStep_shows (results : List (Option (Rating × RatingShow))) :
    ∀ acc : RatingAcc,
    (results.foldl ratingStep acc).ratingShows
      = acc.ratingShows ++ (results.filterMap id).map Prod.snd := by
  induction results with
  | nil => intro acc; simp
  | cons r rest ih =>
      intro acc
      rw [List.foldl_cons, ih]
      cases r with
      | none => simp [ratingStep]
      | some pr =>
          obtain ⟨rating, rs⟩ := pr
          rw [ratingStep]
          by_cases hmem : rating.slug ∈ acc.inserted
          · rw [if_pos hmem]
            dsimp only
            simp [List.filterMap_cons]
          · rw [if_neg hmem]
            dsimp only
            simp [List.filterMap_cons]

/-- C9: over the rating fan-in loop of `MovieFetcher::run` (the fold of
`ratingStep` over the joined per-show results), the final rating-record
set holds exactly one `Rating` per external rating id that occurs among
the matched results — however many shows resolved to it — while the
association set holds exactly one `RatingShow` per matched show, in
order; and after every iteration (every prefix of the fold) at most one
`Rating` per id has been accumulated. -/
theorem rating_dedup (results : List (Option (Rating × RatingShow)))
    (s : String) :
    ((((results.foldl ratingStep ⟨[], [], []⟩).ratings.filter
        (fun q => q.slug = s)).length)
      = if s ∈ (results.filterMap id).map (fun pr => pr.1.slug) then 1 else 0)
    ∧ ((results.foldl ratingStep ⟨[], [], []⟩).ratingShows
        = (results.filterMap id).map Prod.snd)
    ∧ (∀ n, ((((results.take n).foldl ratingStep ⟨[], [], []⟩).ratings.filter
        (fun q => q.slug = s)).length) ≤ 1) := by
  have hwf0 : ∀ s2 : String,
      (((RatingAcc.mk [] [] []).ratings.filter (fun q => q.slug = s2)).length)
        = if s2 ∈ (RatingAcc.mk [] [] []).inserted then 1 else 0 := by
    intro s2; simp
  refine ⟨?_, ?_, ?_⟩
  · rw [foldl_ratingStep_wf results ⟨[], [], []⟩ hwf0 s]
    have hmem := foldl_ratingStep_inserted results ⟨[], [], []⟩ s
    simp only [List.not_mem_nil, false_or] at hmem
    by_cases h : s ∈ (results.filterMap id).map (fun pr => pr.1.slug)
    · rw [if_pos (hmem.mpr h), if_pos h]
    · rw [if_neg (fun h2 => h (hmem.mp h2)), if_neg h]
  · rw [foldl_ratingStep_shows results ⟨[], [], []⟩]
    simp
  · intro n
    rw [foldl_ratingStep_wf (results.take n) ⟨[], [], []⟩ hwf0 s]
    split <;> omega

/-! ## Movie fetcher run lemmas and theorem -/

theorem joinShowtimeHandles_events (f : String → Except ErrMsg (List Showtime)) :
    ∀ cs : List String, ∀ ev ∈ (joinShowtimeHandles f cs).1,
      ∃ c, ev = Event.joinShowtimes c := by
  intro cs
  induction cs with
  | nil => intro ev hev; simp [joinShowtimeHandles] at hev
  | cons c0 rest ih =>
      intro ev hev
      rw [joinShowtimeHandles] at hev
      cases hf0 : f c0 with
      | error e =>
          rw [hf0] at hev
          simp only [List.mem_singleton] at hev
          exact ⟨c0, hev⟩
      | ok sts =>
          rw [hf0] at hev
          rcases hrec : joinShowtimeHandles f rest with ⟨evs, r⟩
          rw [hrec] at hev
          simp only [List.mem_cons] at hev
          rcases hev with rfl | hev
          · exact ⟨c0, rfl⟩
          · exact ih ev (by rw [hrec]; exact hev)

theorem joinRatingHandles_events :
    ∀ (rs : List (String × Except ErrMsg (Option (Rating × RatingShow))))
      (acc : RatingAcc), ∀ ev ∈ (joinRatingHandles rs acc).1,
      ∃ sl, ev = Event.joinRating sl := by
  intro rs
  induction rs with
  | nil => intro acc ev hev; simp [joinRatingHandles] at hev
  | cons pr rest ih =>
      intro acc ev hev
      obtain ⟨slug0, res0⟩ := pr
      cases hres : res0 with
      | error e =>
          rw [hres, joinRatingHandles] at hev
          simp only [List.mem_singleton] at hev
          exact ⟨slug0, hev⟩
      | ok r =>
          rw [hres, joinRatingHandles] at hev
          rcases hrec : joinRatingHandles rest (ratingStep acc r) with ⟨evs, out⟩
          rw [hrec] at hev
          simp only [List.mem_cons] at hev
          rcases hev with rfl | hev
          · exact ⟨slug0, rfl⟩
          · exact ih (ratingStep acc r) ev (by rw [hrec]; exact hev)

theorem write_after_join_split (pre post : List Event)
    (hpre : ∀ t, Event.sinkWrite t ∉ pre)
    (hpost1 : ∀ c, Event.joinShowtimes c ∉ post)
    (hpost2 : ∀ sl, Event.joinRating sl ∉ post) :
    ∀ i j t, (pre ++ post).get? i = some (Event.sinkWrite t) →
      ((∀ c, (pre ++ post).get? j = some (Event.joinShowtimes c) → j < i)
       ∧ (∀ sl, (pre ++ post).get? j = some (Event.joinRating sl) → j < i)) := by
  intro i j t hi
  have hi2 : pre.length ≤ i := by
    by_contra hlt
    push_neg at hlt
    rw [List.get?_append hlt] at hi
    exact hpre t (List.get?_mem hi)
  constructor
  · intro c hj
    by_contra hge
    push_neg at hge
    have hjlen : pre.length ≤ j := le_trans hi2 hge
    rw [List.get?_append_right hjlen] at hj
    exact hpost1 c (List.get?_mem hj)
  · intro sl hj
    by_contra hge
    push_neg at hge
    have hjlen : pre.length ≤ j := le_trans hi2 hge
    rw [List.get?_append_right hjlen] at hj
    exact hpost2 sl (List.get?_mem hj)

theorem joinShowtimeHandles_error (f : String → Except ErrMsg (List Showtime)) :
    ∀ cs : List String, (∃ c ∈ cs, ∃ e, f c = .error e) →
    ∃ evs e, joinShowtimeHandles f cs = (evs, .error e) := by
  intro cs
  induction cs with
  | nil => rintro ⟨c, hc, -⟩; simp at hc
  | cons c0 rest ih =>
      rintro ⟨c, hc, e, hce⟩
      cases hf0 : f c0 with
      | error e0 =>
          exact ⟨[Event.joinShowtimes c0], e0, by rw [joinShowtimeHandles, hf0]⟩
      | ok sts =>
          have hcrest : ∃ c ∈ rest, ∃ e, f c = .error e := by
            rcases List.mem_cons.mp hc with rfl | hmem
            · rw [hf0] at hce; exact absurd hce (by simp)
            · exact ⟨c, hmem, e, hce⟩
          obtain ⟨evs, e2, hrec⟩ := ih hcrest
          refine ⟨Event.joinShowtimes c0 :: evs, e2, ?_⟩
          rw [joinShowtimeHandles, hf0, hrec]
          rfl

theorem joinShowtimeHandles_ok (f : String → Except ErrMsg (List Showtime)) :
    ∀ cs : List String, (∀ c ∈ cs, ∃ sts, f c = .ok sts) →
    ∃ evs sts, joinShowtimeHandles f cs = (evs, .ok sts) := by
  intro cs
  induction cs with
  | nil => intro _; exact ⟨[], [], rfl⟩
  | cons c0 rest ih =>
      intro hall
      obtain ⟨s0, hs0⟩ := hall c0 (List.mem_cons_self _ _)
      obtain ⟨evs, sts, hrec⟩ :=
        ih (fun c hc => hall c (List.mem_cons_of_mem _ hc))
      refine ⟨Event.joinShowtimes c0 :: evs, s0 ++ sts, ?_⟩
      rw [joinShowtimeHandles, hs0, hrec]
      rfl

theorem joinRatingHandles_error :
    ∀ (rs : List (String × Except ErrMsg (Option (Rating × RatingShow))))
      (acc : RatingAcc), (∃ pr ∈ rs, ∃ e, pr.2 = .error e) →
    ∃ evs e, joinRatingHandles rs acc = (evs, .error e) := by
  intro rs
  induction rs with
  | nil => rintro acc ⟨pr, hpr, -⟩; simp at hpr
  | cons pr0 rest ih =>
      rintro acc ⟨pr, hpr, e, hpre⟩
      obtain ⟨slug0, res0⟩ := pr0
      cases hres : res0 with
      | error e0 =>
          exact ⟨[Event.joinRating slug0], e0, by rw [joinRatingHandles]⟩
      | ok r =>
          have hrest : ∃ pr2 ∈ rest, ∃ e2, pr2.2 = .error e2 := by
            rcases List.mem_cons.mp hpr with rfl | hmem
            · rw [hres] at hpre; exact absurd hpre (by simp)
            · exact ⟨pr, hmem, e, hpre⟩
          obtain ⟨evs, e2, hrec⟩ := ih (ratingStep acc r) hrest
          refine ⟨Event.joinRating slug0 :: evs, e2, ?_⟩
          rw [joinRatingHandles, hrec]

/-- C2: over one `MovieFetcher::run`, every sink write strictly follows
every showtime join and every rating join in the run's effect trace,
and when the run fails — in particular whenever any per-cinema showtime
fetch or any per-show rating fetch returns a fatal error — the trace
contains no sink write at all: the run writes either all tables after
all joins succeeded, or nothing. -/
theorem all_or_nothing_write (env : RunEnv) :
    (∀ tr errOpt, MovieFetcher.run env = some (tr, errOpt) →
       (errOpt.isSome = true → ∀ t, Event.sinkWrite t ∉ tr)
       ∧ (∀ i j t, tr.get? i = some (Event.sinkWrite t) →
            ((∀ c, tr.get? j = some (Event.joinShowtimes c) → j < i)
             ∧ (∀ sl, tr.get? j = some (Event.joinRating sl) → j < i))))
    ∧ (∀ cinemas cities shows flat,
        env.cinemas = .ok cinemas → env.cities = .ok cities →
        env.shows = .ok shows → flattenShows shows = some flat →
        ((∃ c ∈ cinemas.map Cinema.slug, ∃ e, env.showtimesOf c = .error e)
         ∨ ((∀ c ∈ cinemas.map Cinema.slug, ∃ sts, env.showtimesOf c = .ok sts)
            ∧ ∃ f ∈ flat, ∃ e,
                env.ratingOf f.1.slug f.1.title
                  (f.1.release_at.map NaiveDate.year) = .error e)) →
        ∃ tr e, MovieFetcher.run env = some (tr, some e)) := by
  constructor
  · intro tr errOpt h
    rcases hcin : env.cinemas with ecin | cinemas
    · rw [MovieFetcher.run, hcin] at h
      dsimp only at h
      obtain ⟨rfl, rfl⟩ : tr = [] ∧ errOpt = some ecin := by
        have := Option.some.inj h.symm
        exact ⟨congrArg Prod.fst this, congrArg Prod.snd this⟩
      exact ⟨fun _ t ht => by simp at ht,
        fun i j t hi => by simp at hi⟩
    · rcases hcit : env.cities with ecit | cities
      · rw [MovieFetcher.run, hcin, hcit] at h
        dsimp only at h
        obtain ⟨rfl, rfl⟩ : tr = [] ∧ errOpt = some ecit := by
          have := Option.some.inj h.symm
          exact ⟨congrArg Prod.fst this, congrArg Prod.snd this⟩
        exact ⟨fun _ t ht => by simp at ht,
          fun i j t hi => by simp at hi⟩
      · rcases hsh : env.shows with esh | shows
        · rw [MovieFetcher.run, hcin, hcit, hsh] at h
          dsimp only at h
          obtain ⟨rfl, rfl⟩ : tr = [] ∧ errOpt = some esh := by
            have := Option.some.inj h.symm
            exact ⟨congrArg Prod.fst this, congrArg Prod.snd this⟩
          exact ⟨fun _ t ht => by simp at ht,
            fun i j t hi => by simp at hi⟩
        · rw [MovieFetcher.run, hcin, hcit, hsh] at h
          dsimp only at h
          rcases hflat : flattenShows shows with - | flat
          · rw [hflat] at h
            exact Option.noConfusion h
          · rw [hflat] at h
            dsimp only at h
            rcases hst : joinShowtimeHandles env.showtimesOf
                (cinemas.map Cinema.slug) with ⟨stEvs, stRes⟩
            have hstonly := joinShowtimeHandles_events env.showtimesOf
              (cinemas.map Cinema.slug)
            rw [hst] at hstonly
            rw [hst] at h
            dsimp only at h
            cases hstr : stRes with
            | error e =>
                rw [hstr] at h
                dsimp only at h
                obtain ⟨rfl, rfl⟩ : tr = stEvs ∧ errOpt = some e := by
                  have := Option.some.inj h.symm
                  exact ⟨congrArg Prod.fst this, congrArg Prod.snd this⟩
                refine ⟨fun _ t ht => ?_, fun i j t hi => ?_⟩
                · obtain ⟨c, hc⟩ := hstonly _ ht
                  exact Event.noConfusion hc
                · obtain ⟨c, hc⟩ := hstonly _ (List.get?_mem hi)
                  exact Event.noConfusion hc
            | ok sts =>
                rw [hstr] at h
                dsimp only at h
                rcases hrt : joinRatingHandles
                    (flat.map (fun f => (f.1.slug, env.ratingOf f.1.slug
                      f.1.title (f.1.release_at.map NaiveDate.year))))
                    ⟨[], [], []⟩ with ⟨rtEvs, rtRes⟩
                have hrtonly := joinRatingHandles_events
                  (flat.map (fun f => (f.1.slug, env.ratingOf f.1.slug
                    f.1.title (f.1.release_at.map NaiveDate.year))))
                  ⟨[], [], []⟩
                rw [hrt] at hrtonly
                rw [hrt] at h
                dsimp only at h
                have hprenw : ∀ t, Event.sinkWrite t ∉ stEvs ++ rtEvs := by
                  intro t ht
                  rcases List.mem_append.mp ht with hmem | hmem
                  · obtain ⟨c, hc⟩ := hstonly _ hmem
                    exact Event.noConfusion hc
                  · obtain ⟨sl, hsl⟩ := hrtonly _ hmem
                    exact Event.noConfusion hsl
                cases hrtr : rtRes with
                | error e =>
                    rw [hrtr] at h
                    dsimp only at h
                    obtain ⟨rfl, rfl⟩ : tr = stEvs ++ rtEvs ∧ errOpt = some e := by
                      have := Option.some.inj h.symm
                      exact ⟨congrArg Prod.fst this, congrArg Prod.snd this⟩
                    refine ⟨fun _ t ht => hprenw t ht, fun i j t hi => ?_⟩
                    exact absurd (List.get?_mem hi) (hprenw t)
                | ok acc =>
                    rw [hrtr] at h
                    dsimp only at h
                    obtain ⟨rfl, rfl⟩ :
                        tr = stEvs ++ rtEvs ++ writeEvents ∧ errOpt = none := by
                      have := Option.some.inj h.symm
                      exact ⟨congrArg Prod.fst this, congrArg Prod.snd this⟩
                    refine ⟨fun habs _ _ => by simp at habs, fun i j t hi => ?_⟩
                    rw [List.append_assoc] at hi ⊢
                    have := write_after_join_split (stEvs ++ rtEvs) writeEvents
                      hprenw (fun c => by simp [writeEvents])
                      (fun sl => by simp [writeEvents]) i j t
                    rw [List.append_assoc] at this
                    exact this hi
  · intro cinemas cities shows flat hcin hcit hsh hflat hfail
    rcases hfail with ⟨c, hc, e, hce⟩ | ⟨hallok, f, hf, e, hre⟩
    · obtain ⟨evs, e2, hst⟩ := joinShowtimeHandles_error env.showtimesOf
        (cinemas.map Cinema.slug) ⟨c, hc, e, hce⟩
      refine ⟨evs, e2, ?_⟩
      rw [MovieFetcher.run, hcin, hcit, hsh]
      dsimp only
      rw [hflat]
      dsimp only
      rw [hst]
    · obtain ⟨stEvs, sts, hst⟩ := joinShowtimeHandles_ok env.showtimesOf
        (cinemas.map Cinema.slug) hallok
      have hfailpr : ∃ pr ∈ flat.map (fun f => (f.1.slug, env.ratingOf f.1.slug
          f.1.title (f.1.release_at.map NaiveDate.year))), ∃ e2, pr.2 = .error e2 := by
        refine ⟨(f.1.slug, env.ratingOf f.1.slug f.1.title
          (f.1.release_at.map NaiveDate.year)), List.mem_map_of_mem _ hf, e, hre⟩
      obtain ⟨rtEvs, e2, hrt⟩ := joinRatingHandles_error
        (flat.map (fun f => (f.1.slug, env.ratingOf f.1.slug f.1.title
          (f.1.release_at.map NaiveDate.year)))) ⟨[], [], []⟩ hfailpr
      refine ⟨stEvs ++ rtEvs, e2, ?_⟩
      rw [MovieFetcher.run, hcin, hcit, hsh]
      dsimp only
      rw [hflat]
      dsimp only
      rw [hst]
      dsimp only
      rw [hrt]

theorem all_or_nothing_write_witness :
    Event.sinkWrite "ratings" ∉ [Event.joinShowtimes "c1"] :=
  ((all_or_nothing_write
      ⟨.ok [⟨"c1", "ci", "n"⟩], .ok [], .ok [],
       fun _ _ _ => .ok none, fun _ => .error "net"⟩).1
    [Event.joinShowtimes "c1"] (some "net") rfl).1 rfl "ratings"

end Schraper
